import Mathlib

/-!
Verification of the typed service registry (`Context`) of the repository.
The public module `src/src/Context.ts` is a façade re-exporting the internal
implementation, which is not part of the sources at hand, so the runtime
behaviour of Tags and Contexts is modelled from the specification (each such
definition carries a doc comment starting with `Modelled from the spec:`).
Values stored in a Context are drawn from an arbitrary type `V` equipped with
decidable equality, modelling the structural-equality contract the spec
requires of stored service values (with fallback to primitive equality).
-/

namespace ContextSpec

/-- Modelled from the spec: the identity of a `Tag` (the internal
implementation is missing from the sources).  A Tag constructed without a key
has allocation identity, modelled by the allocation counter of the call that
created it; a Tag constructed with a key has global identity derived purely
from the key. -/
inductive TagId where
  | alloc : Nat → TagId
  | keyed : String → TagId
deriving DecidableEq, Repr

/-- Modelled from the spec: the `Tag(key?)` constructor (missing internal
implementation).  `fresh` is the allocation counter of this call; it is used
only when no key is supplied, so keyed Tags depend on nothing but their key. -/
def createTag (fresh : Nat) : Option String → TagId
  | none => TagId.alloc fresh
  | some k => TagId.keyed k

/-- Modelled from the spec: the hash of a Tag, derived deterministically from
its identity (for keyed Tags, purely from the key). -/
def tagHash : TagId → Nat
  | TagId.alloc n => 2 * n
  | TagId.keyed k => 2 * (k.foldl (fun h c => h * 31 + c.toNat) 7) + 1

/-- Modelled from the spec: a `Context` is a mapping from Tag identities to
service values; the runtime representation (the `unsafeMap` field of the
missing internal implementation) is an insertion-ordered table, modelled as a
list of key/value entries. -/
structure Context (V : Type) where
  entries : List (TagId × V)

variable {V : Type}

/-- Key list of an entry table. -/
def keysOf (es : List (TagId × V)) : List TagId := es.map Prod.fst

/-- Well-formedness: at most one entry per Tag identity (invariant 1 of the
spec; a runtime map satisfies it by construction). -/
abbrev WF (C : Context V) : Prop := (keysOf C.entries).Nodup

/-- Modelled from the spec: lookup of the first entry for a Tag identity in
the entry table. -/
def findVal : List (TagId × V) → TagId → Option V
  | [], _ => none
  | e :: es, t => if e.1 = t then some e.2 else findVal es t

/-- Modelled from the spec: `getOption(self, tag)`; returns the stored value
when the Tag identity is present, and the empty option otherwise. -/
def getOption (self : Context V) (t : TagId) : Option V :=
  findVal self.entries t

/-- Modelled from the spec: presence test of a Tag identity in a Context. -/
def has (self : Context V) (t : TagId) : Bool :=
  (getOption self t).isSome

/-- Modelled from the spec: the error raised when a looked-up Tag identity is
absent; it carries the identity of the Tag for diagnostics.  It models the
`MissingServiceError` of the missing internal implementation. -/
inductive MissingServiceError where
  | missing : TagId → MissingServiceError
deriving DecidableEq, Repr

/-- Modelled from the spec: `unsafeGet(self, tag)` of the missing internal
implementation; returns the stored value, or fails with a
`MissingServiceError` carrying the Tag identity when it is absent. -/
def forceGet (self : Context V) (t : TagId) : Except MissingServiceError V :=
  match getOption self t with
  | some v => Except.ok v
  | none => Except.error (MissingServiceError.missing t)

/-- Modelled from the spec: `get(self, tag)`; per section 7 of the spec a
lookup of an absent Tag is treated identically to the failure of `unsafeGet`,
so `get` performs the same checked lookup. -/
def get (self : Context V) (t : TagId) : Except MissingServiceError V :=
  forceGet self t

/-- Modelled from the spec: store a value under a Tag identity in the entry
table, overwriting the prior entry for that identity in place and appending a
new entry otherwise (the update step of a runtime map). -/
def setEntry : List (TagId × V) → TagId → V → List (TagId × V)
  | [], t, v => [(t, v)]
  | e :: es, t, v => if e.1 = t then (t, v) :: es else e :: setEntry es t v

/-- Modelled from the spec: `empty()`, the Context with no entries. -/
def emptyCtx : Context V := ⟨[]⟩

/-- Modelled from the spec: `make(tag, service)`, the one-entry Context. -/
def make (t : TagId) (v : V) : Context V := ⟨[(t, v)]⟩

/-- Modelled from the spec: `add(self, tag, service)`; a new Context equal to
`self` with `tag` mapped to `service`, overwriting any prior entry for the
same Tag identity. -/
def add (self : Context V) (t : TagId) (v : V) : Context V :=
  ⟨setEntry self.entries t v⟩

/-- Modelled from the spec: the entry table of the union of two Contexts; the
entries of `b` are written over a copy of `a` one by one, so on a collision
the entry of `b` wins (right-biased union). -/
def mergeEntries (a b : List (TagId × V)) : List (TagId × V) :=
  b.foldl (fun acc e => setEntry acc e.1 e.2) a

/-- Modelled from the spec: `merge(self, that)`, the right-biased union. -/
def merge (self that : Context V) : Context V :=
  ⟨mergeEntries self.entries that.entries⟩

/-- Modelled from the spec: `pick(self, tags)`; keeps exactly the entries
whose Tag identity appears in the given list, values unchanged. -/
def pick (self : Context V) (tags : List TagId) : Context V :=
  ⟨self.entries.filter fun e => decide (e.1 ∈ tags)⟩

/-- Modelled from the spec: the structural equality test on Contexts
(invariant 3): the two tables have the same number of entries and every entry
of the left table is present, with a structurally equal value, in the right
one. -/
def ctxEq [DecidableEq V] (A B : Context V) : Bool :=
  decide (A.entries.length = B.entries.length) &&
    A.entries.all fun e =>
      match findVal B.entries e.1 with
      | some v => decide (v = e.2)
      | none => false

/-- A fixture Tag used by the concrete witnesses below. -/
def tagA : TagId := TagId.keyed "a"

/-- A fixture Tag used by the concrete witnesses below. -/
def tagB : TagId := TagId.keyed "b"

/-- A fixture Context used by the concrete witnesses below. -/
def sampleA : Context Nat := ⟨[(tagA, 1), (tagB, 2)]⟩

/-- A fixture Context used by the concrete witnesses below. -/
def sampleB : Context Nat := ⟨[(tagB, 3)]⟩

theorem findVal_setEntry (es : List (TagId × V)) (t : TagId) (v : V) (s : TagId) :
    findVal (setEntry es t v) s = if s = t then some v else findVal es s := by
  induction es with
  | nil => simp [setEntry, findVal, eq_comm]
  | cons e es ih =>
    by_cases het : e.1 = t
    · subst het
      by_cases hst : s = e.1 <;> simp [setEntry, findVal, hst, eq_comm]
    · by_cases hes : e.1 = s
      · have hst : ¬ s = t := fun h => het (h ▸ hes)
        simp [setEntry, findVal, het, hes, hst]
      · simp [setEntry, findVal, het, hes, ih]

theorem mem_keys_iff_findVal (es : List (TagId × V)) (s : TagId) :
    s ∈ keysOf es ↔ (findVal es s).isSome := by
  induction es with
  | nil => simp [keysOf, findVal]
  | cons e es ih =>
    have hk : keysOf (e :: es) = e.1 :: keysOf es := rfl
    by_cases hes : e.1 = s
    · simp [hk, findVal, hes]
    · have hse : ¬ s = e.1 := fun h => hes h.symm
      rw [hk, findVal]
      simp only [hes, if_false, List.mem_cons, ih]
      simp [hse]

theorem findVal_eq_none_of_not_mem {es : List (TagId × V)} {s : TagId}
    (h : s ∉ keysOf es) : findVal es s = none := by
  cases hf : findVal es s with
  | none => rfl
  | some v =>
    exact absurd ((mem_keys_iff_findVal es s).2 (by simp [hf])) h

theorem mem_keys_setEntry (es : List (TagId × V)) (t : TagId) (v : V) (s : TagId) :
    s ∈ keysOf (setEntry es t v) ↔ s ∈ keysOf es ∨ s = t := by
  rw [mem_keys_iff_findVal, findVal_setEntry, mem_keys_iff_findVal]
  by_cases hst : s = t <;> simp [hst]

theorem nodup_setEntry {es : List (TagId × V)} (t : TagId) (v : V)
    (h : (keysOf es).Nodup) : (keysOf (setEntry es t v)).Nodup := by
  induction es with
  | nil => simp [setEntry, keysOf]
  | cons e es ih =>
    simp only [keysOf, List.map_cons, List.nodup_cons] at h
    by_cases het : e.1 = t
    · subst het
      simpa [setEntry, keysOf, List.nodup_cons] using h
    · have h2 := ih h.2
      have h1 : e.1 ∉ keysOf (setEntry es t v) := by
        rw [mem_keys_setEntry]
        rintro (hm | hm)
        · exact h.1 hm
        · exact het hm
      simpa [setEntry, het, keysOf, List.nodup_cons] using And.intro h1 h2

theorem findVal_mergeEntries (a : List (TagId × V)) {b : List (TagId × V)}
    (hb : (keysOf b).Nodup) (s : TagId) :
    findVal (mergeEntries a b) s =
      if (findVal b s).isSome then findVal b s else findVal a s := by
  induction b generalizing a with
  | nil => simp [mergeEntries, findVal]
  | cons e es ih =>
    simp only [keysOf, List.map_cons, List.nodup_cons] at hb
    have step : mergeEntries a (e :: es) = mergeEntries (setEntry a e.1 e.2) es := rfl
    rw [step, ih _ hb.2]
    by_cases hes : e.1 = s
    · subst hes
      have : findVal es e.1 = none :=
        findVal_eq_none_of_not_mem (by simpa [keysOf] using hb.1)
      simp [this, findVal, findVal_setEntry]
    · have hse : ¬ s = e.1 := fun h => hes h.symm
      by_cases hmem : (findVal es s).isSome <;>
        simp [findVal, hes, hse, hmem, findVal_setEntry]

theorem nodup_mergeEntries {a : List (TagId × V)} (b : List (TagId × V))
    (ha : (keysOf a).Nodup) : (keysOf (mergeEntries a b)).Nodup := by
  induction b generalizing a with
  | nil => exact ha
  | cons e es ih =>
    have step : mergeEntries a (e :: es) = mergeEntries (setEntry a e.1 e.2) es := rfl
    rw [step]
    exact ih (nodup_setEntry e.1 e.2 ha)

theorem findVal_filter_mem (es : List (TagId × V)) (tags : List TagId) (s : TagId) :
    findVal (es.filter fun e => decide (e.1 ∈ tags)) s =
      if s ∈ tags then findVal es s else none := by
  induction es with
  | nil => simp [findVal]
  | cons e es ih =>
    by_cases hm : e.1 ∈ tags
    · by_cases hes : e.1 = s
      · subst hes
        simp [findVal, hm, List.filter_cons]
      · simp [findVal, hm, hes, ih, List.filter_cons]
    · have : ¬ e.1 = s ∨ ¬ s ∈ tags := by
        by_cases hes : e.1 = s
        · exact Or.inr (hes ▸ hm)
        · exact Or.inl hes
      rcases this with hes | hs
      · simp [findVal, hm, hes, ih, List.filter_cons]
      · simp [findVal, hm, hs, ih, List.filter_cons]

theorem nodup_filter_keys {es : List (TagId × V)} (p : TagId × V → Bool)
    (h : (keysOf es).Nodup) : (keysOf (es.filter p)).Nodup :=
  h.sublist ((List.filter_sublist es).map Prod.fst)

theorem findVal_eq_of_mem {es : List (TagId × V)} {t : TagId} {v : V}
    (h : (keysOf es).Nodup) (hm : (t, v) ∈ es) : findVal es t = some v := by
  induction es with
  | nil => cases hm
  | cons e es ih =>
    simp only [keysOf, List.map_cons, List.nodup_cons] at h
    rcases List.mem_cons.1 hm with he | he
    · simp [findVal, ← he]
    · have ht : t ∈ keysOf es := by
        simpa [keysOf] using List.mem_map_of_mem Prod.fst he
      have hne : ¬ e.1 = t := fun hx => h.1 (hx ▸ ht)
      simp [findVal, hne, ih h.2 he]

theorem findVal_mem {es : List (TagId × V)} {t : TagId} {v : V}
    (h : findVal es t = some v) : (t, v) ∈ es := by
  induction es with
  | nil => simp [findVal] at h
  | cons e es ih =>
    by_cases hes : e.1 = t
    · simp only [findVal, hes, if_pos rfl] at h
      cases h
      exact List.mem_cons.2 (Or.inl (by rcases e with ⟨a, b⟩; simp_all))
    · simp only [findVal, hes, if_neg hes] at h
      exact List.mem_cons.2 (Or.inr (ih h))

theorem setEntry_setEntry (es : List (TagId × V)) (t : TagId) (w v : V) :
    setEntry (setEntry es t w) t v = setEntry es t v := by
  induction es with
  | nil => simp [setEntry]
  | cons e es ih =>
    by_cases het : e.1 = t
    · simp [setEntry, het]
    · simp [setEntry, het, ih]

theorem WF_empty : WF (emptyCtx : Context V) := by
  simp [emptyCtx, WF, keysOf]

theorem WF_add (C : Context V) (t : TagId) (v : V) (hC : WF C) : WF (add C t v) :=
  nodup_setEntry t v hC

theorem WF_merge (A B : Context V) (hA : WF A) : WF (merge A B) :=
  nodup_mergeEntries B.entries hA

theorem WF_pick (C : Context V) (T : List TagId) (hC : WF C) : WF (pick C T) :=
  nodup_filter_keys _ hC

theorem getOption_add (C : Context V) (t : TagId) (v : V) (s : TagId) :
    getOption (add C t v) s = if s = t then some v else getOption C s :=
  findVal_setEntry C.entries t v s

theorem getOption_merge (A B : Context V) (hB : WF B) (t : TagId) :
    getOption (merge A B) t =
      if (getOption B t).isSome then getOption B t else getOption A t :=
  findVal_mergeEntries A.entries hB t

theorem getOption_pick (C : Context V) (T : List TagId) (t : TagId) :
    getOption (pick C T) t = if t ∈ T then getOption C t else none :=
  findVal_filter_mem C.entries T t

theorem ctxEq_iff_getOption [DecidableEq V] {A B : Context V} (hA : WF A) (hB : WF B) :
    ctxEq A B = true ↔ ∀ t, getOption A t = getOption B t := by
  rw [ctxEq, Bool.and_eq_true, decide_eq_true_eq, List.all_eq_true]
  constructor
  · rintro ⟨hlen, hall⟩ t
    cases hfa : findVal A.entries t with
    | some v =>
      have h2 := hall (t, v) (findVal_mem hfa)
      cases hfb : findVal B.entries t with
      | some w =>
        simp only [hfb, decide_eq_true_eq] at h2
        rw [getOption, getOption, hfa, hfb, h2]
      | none => simp [hfb] at h2
    | none =>
      have hsub : ∀ s, s ∈ keysOf A.entries → s ∈ keysOf B.entries := by
        intro s hs
        have h1 := (mem_keys_iff_findVal A.entries s).1 hs
        cases hfa2 : findVal A.entries s with
        | none => rw [hfa2] at h1; simp at h1
        | some x =>
          have h2 := hall (s, x) (findVal_mem hfa2)
          cases hfb : findVal B.entries s with
          | none => simp [hfb] at h2
          | some w => exact (mem_keys_iff_findVal B.entries s).2 (by simp [hfb])
      have hfin : (keysOf A.entries).toFinset = (keysOf B.entries).toFinset := by
        apply Finset.eq_of_subset_of_card_le
        · intro s hs
          rw [List.mem_toFinset] at hs ⊢
          exact hsub s hs
        · rw [List.toFinset_card_of_nodup hA, List.toFinset_card_of_nodup hB]
          simp [keysOf, hlen]
      have hbn : findVal B.entries t = none := by
        apply findVal_eq_none_of_not_mem
        intro htB
        have htA : t ∈ keysOf A.entries := by
          rw [← List.mem_toFinset, hfin, List.mem_toFinset]
          exact htB
        have h1 := (mem_keys_iff_findVal A.entries t).1 htA
        rw [hfa] at h1
        simp at h1
      rw [getOption, getOption, hfa, hbn]
  · intro h
    have hfin : (keysOf A.entries).toFinset = (keysOf B.entries).toFinset := by
      ext s
      rw [List.mem_toFinset, List.mem_toFinset, mem_keys_iff_findVal,
        mem_keys_iff_findVal]
      have hs := h s
      rw [getOption, getOption] at hs
      rw [hs]
    constructor
    · have hkl : (keysOf A.entries).length = (keysOf B.entries).length := by
        rw [← List.toFinset_card_of_nodup hA, ← List.toFinset_card_of_nodup hB, hfin]
      simpa [keysOf] using hkl
    · rintro ⟨t, v⟩ he
      have hft : findVal A.entries t = some v := findVal_eq_of_mem hA he
      have h2 := h t
      rw [getOption, getOption, hft] at h2
      simp [← h2]

theorem ctxEq_refl [DecidableEq V] {A : Context V} (hA : WF A) : ctxEq A A = true :=
  (ctxEq_iff_getOption hA hA).2 fun _ => rfl

/-- Claim C1: merge is right-biased — for every pair of Contexts A and B and
every Tag t whose identity is present in both, `get (merge A B) t` equals
`get B t`, and it can only equal `get A t` when the two stored values agree. -/
theorem merge_right_biased (A B : Context V) (t : TagId) (hB : WF B)
    (htA : has A t = true) (htB : has B t = true) :
    get (merge A B) t = get B t ∧
      (get (merge A B) t = get A t → get A t = get B t) := by
  have htB2 : (getOption B t).isSome = true := htB
  have hm : getOption (merge A B) t = getOption B t := by
    rw [getOption_merge A B hB t, if_pos htB2]
  have hget : get (merge A B) t = get B t := by
    rw [get, get, forceGet, forceGet, hm]
  exact ⟨hget, fun h => by rw [← h, hget]⟩

theorem merge_right_biased_witness :
    WF sampleB ∧ has sampleA tagB = true ∧ has sampleB tagB = true ∧
      get (merge sampleA sampleB) tagB = get sampleB tagB :=
  ⟨by decide, by decide, by decide,
    (merge_right_biased sampleA sampleB tagB (by decide) (by decide) (by decide)).1⟩

/-- Claim C2: Context structural equality — `ctxEq A B` holds iff A and B
contain the same Tag identities with equal stored values (expressed as
agreement of `getOption` at every Tag); the relation is reflexive and
symmetric; and it is independent of the order in which the entries were
added, exemplified by swapping two adds of distinct Tags. -/
theorem context_structural_equality [DecidableEq V] :
    (∀ A B : Context V, WF A → WF B →
        (ctxEq A B = true ↔ ∀ t, getOption A t = getOption B t)) ∧
      (∀ A : Context V, WF A → ctxEq A A = true) ∧
      (∀ A B : Context V, WF A → WF B →
        (ctxEq A B = true ↔ ctxEq B A = true)) ∧
      (∀ (C : Context V) (t₁ t₂ : TagId) (v₁ v₂ : V), WF C → t₁ ≠ t₂ →
        ctxEq (add (add C t₁ v₁) t₂ v₂) (add (add C t₂ v₂) t₁ v₁) = true) := by
  refine ⟨fun A B hA hB => ctxEq_iff_getOption hA hB,
    fun A hA => ctxEq_refl hA, fun A B hA hB => ?_, ?_⟩
  · rw [ctxEq_iff_getOption hA hB, ctxEq_iff_getOption hB hA]
    exact ⟨fun h t => (h t).symm, fun h t => (h t).symm⟩
  · intro C t₁ t₂ v₁ v₂ hC hne
    have h1 : WF (add (add C t₁ v₁) t₂ v₂) := WF_add _ t₂ v₂ (WF_add C t₁ v₁ hC)
    have h2 : WF (add (add C t₂ v₂) t₁ v₁) := WF_add _ t₁ v₁ (WF_add C t₂ v₂ hC)
    rw [ctxEq_iff_getOption h1 h2]
    intro t
    rw [getOption_add, getOption_add, getOption_add, getOption_add]
    by_cases e1 : t = t₁
    · have e2 : ¬ t = t₂ := fun h => hne (e1 ▸ h)
      simp [e1, e2, hne]
    · by_cases e2 : t = t₂ <;> simp [e1, e2, Ne.symm hne]

theorem context_structural_equality_witness :
    ctxEq sampleA sampleA = true ∧
      ctxEq (add (add sampleA (TagId.keyed "x") 7) (TagId.keyed "y") 8)
        (add (add sampleA (TagId.keyed "y") 8) (TagId.keyed "x") 7) = true :=
  ⟨context_structural_equality.2.1 sampleA (by decide),
    context_structural_equality.2.2.2 sampleA (TagId.keyed "x") (TagId.keyed "y")
      7 8 (by decide) (by decide)⟩

/-- Claim C3: Tag identity — two constructor calls without a key (distinct
allocations) yield Tags that are not equal, while two independent calls with
the same key yield Tags that are equal and hash identically. -/
theorem tag_identity :
    (∀ n m : Nat, n ≠ m → createTag n none ≠ createTag m none) ∧
      (∀ (n m : Nat) (k : String),
        createTag n (some k) = createTag m (some k) ∧
          tagHash (createTag n (some k)) = tagHash (createTag m (some k))) := by
  constructor
  · intro n m h hc
    exact h (by simpa [createTag] using hc)
  · intro n m k
    exact ⟨rfl, rfl⟩

theorem tag_identity_witness :
    ((0 : Nat) ≠ 1 ∧ createTag 0 none ≠ createTag 1 none) ∧
      createTag 2 (some "PORT") = createTag 5 (some "PORT") :=
  ⟨⟨by decide, tag_identity.1 0 1 (by decide)⟩, (tag_identity.2 2 5 "PORT").1⟩

/-- Claim C4: getOption and the checked lookup agree — `getOption C t` is
present exactly when the Tag is present (exactly when `forceGet`, the model
of unsafeGet, succeeds), the wrapped value is the value `forceGet` returns,
and at an absent Tag `getOption` returns `none` without failing while
`forceGet` fails with a `MissingServiceError` naming the Tag. -/
theorem getOption_forceGet_consistency (C : Context V) (t : TagId) :
    (has C t = true ↔ ∃ v, getOption C t = some v) ∧
      (has C t = true ↔ ∃ v, forceGet C t = Except.ok v) ∧
      (∀ v, getOption C t = some v ↔ forceGet C t = Except.ok v) ∧
      (has C t = false → getOption C t = none ∧
        forceGet C t = Except.error (MissingServiceError.missing t)) := by
  cases hf : getOption C t with
  | some w =>
    refine ⟨?_, ?_, ?_, ?_⟩
    · simp [has, hf]
    · simp [has, forceGet, hf]
    · intro v
      simp [forceGet, hf]
    · intro h
      rw [has, hf] at h
      simp at h
  | none =>
    refine ⟨?_, ?_, ?_, ?_⟩
    · simp [has, hf]
    · simp [has, forceGet, hf]
    · intro v
      simp [forceGet, hf]
    · intro _
      simp [forceGet, hf]

theorem getOption_forceGet_consistency_witness :
    has sampleA tagA = false ∨
      (getOption sampleA tagA = some 1 ↔ forceGet sampleA tagA = Except.ok 1) :=
  Or.inr ((getOption_forceGet_consistency sampleA tagA).2.2.1 1)

/-- Claim C6: add overwrites on a Tag-identity collision — writing twice
under the same Tag leaves only the later value, so the double add equals the
single add under structural equality, in particular with the same value
twice. -/
theorem add_overwrites [DecidableEq V] (C : Context V) (t : TagId) (w v : V)
    (hC : WF C) :
    ctxEq (add (add C t w) t v) (add C t v) = true ∧
      ctxEq (add (add C t v) t v) (add C t v) = true := by
  have he : ∀ u : V, add (add C t u) t v = add C t v := fun u =>
    congrArg Context.mk (setEntry_setEntry C.entries t u v)
  constructor
  · rw [he w]
    exact ctxEq_refl (WF_add C t v hC)
  · rw [he v]
    exact ctxEq_refl (WF_add C t v hC)

theorem add_overwrites_witness :
    ctxEq (add (add sampleA tagA 9) tagA 4) (add sampleA tagA 4) = true :=
  (add_overwrites sampleA tagA 9 4 (by decide)).1

/-- Claim C7: the empty Context is the identity element of merge, on the
right and on the left, under structural equality. -/
theorem merge_empty_identity [DecidableEq V] (A : Context V) (hA : WF A) :
    ctxEq (merge A (emptyCtx : Context V)) A = true ∧
      ctxEq (merge (emptyCtx : Context V) A) A = true := by
  constructor
  · have he : merge A (emptyCtx : Context V) = A := rfl
    rw [he]
    exact ctxEq_refl hA
  · rw [ctxEq_iff_getOption (WF_merge emptyCtx A WF_empty) hA]
    intro t
    rw [getOption_merge emptyCtx A hA t]
    cases hq : getOption A t with
    | some v => simp [hq]
    | none => simp [hq, getOption, emptyCtx, findVal]

theorem merge_empty_identity_witness :
    ctxEq (merge sampleA (emptyCtx : Context Nat)) sampleA = true :=
  (merge_empty_identity sampleA (by decide)).1

/-- Claim C8: pick subset law — a Tag identity is present in `pick C T`
exactly when it is both in the list T and in C, every retained Tag keeps its
value from C unchanged, and listed Tags absent from C are silently omitted,
the lookup being total. -/
theorem pick_subset (C : Context V) (T : List TagId) :
    (∀ t, getOption (pick C T) t = if t ∈ T then getOption C t else none) ∧
      (∀ t, has (pick C T) t = (decide (t ∈ T) && has C t)) ∧
      (∀ t, has (pick C T) t = true → t ∈ T ∧ has C t = true) := by
  have h1 : ∀ t, getOption (pick C T) t = if t ∈ T then getOption C t else none :=
    getOption_pick C T
  have h2 : ∀ t, has (pick C T) t = (decide (t ∈ T) && has C t) := by
    intro t
    rw [has, h1 t]
    by_cases ht : t ∈ T <;> simp [ht, has]
  refine ⟨h1, h2, fun t hp => ?_⟩
  rw [h2 t, Bool.and_eq_true, decide_eq_true_eq] at hp
  exact hp

theorem pick_subset_witness :
    tagA ∈ [tagA] ∧ has sampleA tagA = true :=
  (pick_subset sampleA [tagA]).2.2 tagA (by decide)

/-- Claim C9: `get` at an absent Tag behaves exactly like the failure of the
unchecked lookup — it returns the `MissingServiceError` carrying the Tag
identity rather than a null-like value, and coincides with `forceGet`. -/
theorem get_absent_raises (C : Context V) (t : TagId) (h : has C t = false) :
    get C t = Except.error (MissingServiceError.missing t) ∧
      get C t = forceGet C t := by
  refine ⟨?_, rfl⟩
  rw [get, forceGet]
  cases hf : getOption C t with
  | some v =>
    rw [has, hf] at h
    simp at h
  | none => simp

theorem get_absent_raises_witness :
    get (emptyCtx : Context Nat) tagA =
      Except.error (MissingServiceError.missing tagA) :=
  (get_absent_raises (emptyCtx : Context Nat) tagA (by decide)).1

/-- Claim C10: merge is idempotent — merging a Context with itself yields a
Context structurally equal to the original. -/
theorem merge_idempotent [DecidableEq V] (A : Context V) (hA : WF A) :
    ctxEq (merge A A) A = true := by
  rw [ctxEq_iff_getOption (WF_merge A A hA) hA]
  intro t
  rw [getOption_merge A A hA t]
  cases h : getOption A t <;> simp [h]

theorem merge_idempotent_witness : ctxEq (merge sampleA sampleA) sampleA = true :=
  merge_idempotent sampleA (by decide)

end ContextSpec
